import Mathlib

/-!
Verification of the mitiq excerpt: the `Observable` Pauli-term partitioner and
matrix construction (`mitiq/observable/observable.py`), and the Clifford
data-regression (CDR) training-data angle machinery exercised by
`mitiq/cdr/test_clifford_training_data.py`.

Machine integers do not occur; angles are rational multiples of pi, matrix
entries are Gaussian integers.
-/

/-- Modelled from the spec: a single-qubit non-identity Pauli operator
(`X`, `Y` or `Z`); the identity is represented by absence from a
`PauliString` support (`mitiq/observable/pauli.py` is not in the excerpt). -/
inductive PauliOp : Type
  | X : PauliOp
  | Y : PauliOp
  | Z : PauliOp
deriving DecidableEq

/-- Modelled from the spec: a `PauliString` assigns non-identity Pauli
operators to a subset of qubit indices, with a sign/coefficient
(`mitiq/observable/pauli.py` is not in the excerpt).  The support is kept as
an association list from qubit index to operator. -/
structure PauliString : Type where
  support : List (ℕ × PauliOp)
  coeff : ℤ
deriving DecidableEq

/-- The Pauli operator a `PauliString` applies at qubit `q`, if any. -/
def PauliString.opAt (p : PauliString) (q : ℕ) : Option PauliOp :=
  p.support.lookup q

/-- Modelled from the spec: two `PauliString`s can be measured simultaneously
iff their non-identity supports agree wherever both are non-identity
(qubit-wise commutation); `PauliString.can_be_measured_with` itself lives in
`mitiq/observable/pauli.py`, which is not in the excerpt. -/
def PauliString.can_be_measured_with (a b : PauliString) : Bool :=
  (a.support.map Prod.fst ++ b.support.map Prod.fst).all fun q =>
    match a.opAt q, b.opAt q with
    | some o1, some o2 => o1 = o2
    | _, _ => true

/-- `Observable` from `observable.py`: `self._paulis = set(paulis)`.  The
`terms` list records the underlying set in its (implementation-defined)
iteration order; construction from a tuple deduplicates, see
`Observable.ofTerms`. -/
structure Observable : Type where
  terms : List PauliString
deriving DecidableEq

/-- `Observable.__init__`: `set(paulis)` collapses duplicates. -/
def Observable.ofTerms (paulis : List PauliString) : Observable :=
  ⟨paulis.dedup⟩

/-- `Observable.nterms`: `len(self._paulis)`. -/
def Observable.nterms (o : Observable) : ℕ :=
  o.terms.length

/-- `Observable._qubits`: the set of all qubit indices acted on. -/
def Observable.qubitFinset (o : Observable) : Finset ℕ :=
  (o.terms.flatMap fun p => p.support.map Prod.fst).toFinset

/-- `Observable.qubit_indices`: the sorted list of qubit indices. -/
def Observable.qubit_indices (o : Observable) : List ℕ :=
  o.qubitFinset.sort (· ≤ ·)

/-- `Observable.nqubits`. -/
def Observable.nqubits (o : Observable) : ℕ :=
  o.qubit_indices.length

/-- The loop guard of `Observable.partition`:
`all(pauli.can_be_measured_with(p) for p in plist)`. -/
def fitsGroup (t : PauliString) (g : List PauliString) : Bool :=
  g.all fun p => t.can_be_measured_with p

/-- The `for (i, plist) in enumerate(plists)` loop of `Observable.partition`:
append `t` to the first group it fits in (`plists[i].append(pauli); break`),
or report failure (`added = False`). -/
def placeFirst (t : PauliString) : List (List PauliString) → Option (List (List PauliString))
  | [] => none
  | g :: gs =>
    if fitsGroup t g then some ((g ++ [t]) :: gs)
    else (placeFirst t gs).map fun r => g :: r

/-- The `while paulis:` loop of `Observable.partition`, with the popped
iteration order given as a list: place each term via `placeFirst`, starting a
new singleton group when it fits nowhere (`plists.append([pauli])`). -/
def partitionLoop : List (List PauliString) → List PauliString → List (List PauliString)
  | plists, [] => plists
  | plists, t :: rest =>
    match placeFirst t plists with
    | some plists2 => partitionLoop plists2 rest
    | none => partitionLoop (plists ++ [[t]]) rest

/-- `Observable.partition`: run the greedy loop over the term iteration order
and return `set(frozenset(plist) for plist in plists)`. -/
def Observable.partition (o : Observable) : Finset (Finset PauliString) :=
  ((partitionLoop [] o.terms).map List.toFinset).toFinset

/-- Rephrased from the spec's algorithm description: the index of the first
existing group in which the term is pairwise-compatible with every member. -/
def firstFitIndex (t : PauliString) : List (List PauliString) → Option ℕ
  | [] => none
  | g :: gs =>
    if g.all (fun p => t.can_be_measured_with p) then some 0
    else (firstFitIndex t gs).map (· + 1)

/-- Rephrased from the spec's algorithm description: place the term into the
first fitting group, or start a new group. -/
def placeTerm (groups : List (List PauliString)) (t : PauliString) : List (List PauliString) :=
  match firstFitIndex t groups with
  | some i => groups.set i (groups.getD i [] ++ [t])
  | none => groups ++ [[t]]

/-- Rephrased from the spec's algorithm description: greedy first-fit
grouping, taking each term in iteration order starting from no groups. -/
def greedyFirstFit (terms : List PauliString) : List (List PauliString) :=
  terms.foldl placeTerm []

/-- Single-qubit Pauli matrices (entries are Gaussian integers). -/
def PauliOp.mat : PauliOp → Fin 2 → Fin 2 → GaussianInt
  | .X, i, j => if i = j then 0 else 1
  | .Y, i, j => if i = j then 0 else if i.val = 0 then ⟨0, -1⟩ else ⟨0, 1⟩
  | .Z, i, j => if i = j then (if i.val = 0 then 1 else -1) else 0

/-- The 2×2 identity matrix. -/
def idMat2 : Fin 2 → Fin 2 → GaussianInt :=
  fun i j => if i = j then 1 else 0

/-- The single-qubit factor a `PauliString` contributes at qubit `q`
(identity off its support). -/
def PauliString.matAt (p : PauliString) (q : ℕ) : Fin 2 → Fin 2 → GaussianInt :=
  match p.opAt q with
  | some o => o.mat
  | none => idMat2

/-- Entry `(i, j)` of the Kronecker product of a list of 2×2 matrices,
first factor most significant. -/
def kronFun : List (Fin 2 → Fin 2 → GaussianInt) → ℕ → ℕ → GaussianInt
  | [], _, _ => 1
  | M :: Ms, i, j =>
    M ⟨i / 2 ^ Ms.length % 2, Nat.mod_lt _ (by norm_num)⟩
        ⟨j / 2 ^ Ms.length % 2, Nat.mod_lt _ (by norm_num)⟩ *
      kronFun Ms (i % 2 ^ Ms.length) (j % 2 ^ Ms.length)

/-- Modelled from the spec: `PauliString.matrix(qubit_indices_to_include)`
(in `mitiq/observable/pauli.py`, not in the excerpt) embeds the term along
the given global qubit index list, tensoring identity on qubits outside the
term's support, scaled by the coefficient. -/
def PauliString.matrix (p : PauliString) (qs : List ℕ) :
    Matrix (Fin (2 ^ qs.length)) (Fin (2 ^ qs.length)) GaussianInt :=
  fun i j => (p.coeff : GaussianInt) * kronFun (qs.map p.matAt) i.val j.val

/-- `Observable.matrix`: start from the zero matrix and add each term's
embedded matrix (`matrix += pauli.matrix(qubit_indices_to_include=...)`). -/
def Observable.matrix (o : Observable) :
    Matrix (Fin (2 ^ o.nqubits)) (Fin (2 ^ o.nqubits)) GaussianInt :=
  o.terms.foldl (fun acc p => acc + p.matrix o.qubit_indices) 0

/-! ### CDR training-data model

`mitiq/cdr/clifford_training_data.py` is not part of the excerpt (only its
test file is), so the angle classification, selection and replacement
routines below are modelled from the spec.  A rotation angle is represented
as a rational multiple of pi: the value `r : ℚ` stands for the angle `r·π`,
so the canonical Clifford angles `{0, π/2, π, 3π/2}` are `{0, 1/2, 1, 3/2}`
and reduction modulo `2π` is reduction modulo `2`. -/

/-- Reduction of an angle (in units of pi) modulo a full turn: the unique
representative in `[0, 2)`. -/
def amod2 (x : ℚ) : ℚ := x - 2 * ⌊x / 2⌋

/-- The four canonical Clifford angles, in angle order (units of pi). -/
def cliffordAngles : List ℚ := [0, 1/2, 1, 3/2]

/-- Modelled from the spec: `_is_clifford_angle` — true iff the angle
modulo `2π` is (within tolerance; exact here, since angles are exact
rationals) one of the canonical Clifford angles. -/
def _is_clifford_angle (a : ℚ) : Bool :=
  decide (amod2 a ∈ cliffordAngles)

/-- Absolute circular distance between two angles (units of pi). -/
def cdist (a b : ℚ) : ℚ :=
  min (amod2 (a - b)) (2 - amod2 (a - b))

/-- Modelled from the spec: `_closest_clifford` — the canonical Clifford
angle nearest by absolute circular distance, ties broken by angle order
(the first minimiser in `cliffordAngles` wins). -/
def _closest_clifford (a : ℚ) : ℚ :=
  cliffordAngles.tail.foldl (fun best c => if cdist a c < cdist a best then c else best)
    (cliffordAngles.headD 0)

/-- A linear congruential step, used to model the seeded pseudo-random
choices of the CDR routines. -/
def lcgNext (s : ℕ) : ℕ := (1103515245 * s + 12345) % 2147483648

/-- Modelled from the spec: `_random_clifford` — uniformly pick one of the
four canonical angles; the seeded draw is modelled by an LCG. -/
def _random_clifford (seed : ℕ) : ℚ :=
  cliffordAngles.getD (lcgNext seed % 4) 0

/-- Modelled from the spec: `_probabilistic_angle_to_clifford` — sample a
canonical angle with probability proportional to a Gaussian kernel of the
distance from the original angle.  The Gaussian weighting is a property of
the sampling distribution, not of any single output; the model keeps what
the spec guarantees of each output (it is one of the four canonical angles)
and draws the index from the seed and the angle's numerator and spread. -/
def _probabilistic_angle_to_clifford (a : ℚ) (sigma : ℚ) (seed : ℕ) : ℚ :=
  cliffordAngles.getD (lcgNext (seed + a.num.natAbs + sigma.num.natAbs) % 4) 0

/-- The recognised selection policy names. -/
def selectMethods : List String := ["random", "probabilistic"]

/-- The recognised replacement policy names. -/
def replaceMethods : List String := ["closest", "random", "probabilistic"]

/-- Seeded extraction shuffle (Fisher–Yates with an LCG), used to model
sampling without replacement. -/
def seededShuffle : ℕ → List ℕ → List ℕ
  | _, [] => []
  | s, x :: xs =>
    let l := x :: xs
    let i := s % l.length
    l.getD i 0 :: seededShuffle (lcgNext s) (l.take i ++ l.drop (i + 1))
termination_by _ l => l.length
decreasing_by
  have hi : s % (x :: xs).length < (x :: xs).length := Nat.mod_lt _ (by simp)
  simp only [List.length_append, List.length_take, List.length_drop, List.length_cons,
    l, i] at hi ⊢
  omega

/-- The error message `_select` raises on an unrecognised policy name. -/
def selectErrMsg (method : String) : String :=
  "Arg method_select must be random or probabilistic but was " ++ method

/-- The error message `_replace` raises on an unrecognised policy name. -/
def replaceErrMsg (method : String) : String :=
  "Arg method_replace must be closest, random or probabilistic but was " ++ method

/-- Modelled from the spec: `_select` — given the non-Clifford angles,
return the indices of the angles to replace, of size
`total − round(fraction_non_clifford × total)`; `random` samples them
uniformly without replacement, `probabilistic` weights by a Gaussian kernel
(the weighting is abstracted into the seeded draw; the sample size and
distinctness are what the spec guarantees).  Unrecognised policy names are a
configuration error naming the bad value. -/
def _select (angles : List ℚ) (fraction : ℚ) (method : String) (sigma : ℚ) (seed : ℕ) :
    Except String (List ℕ) :=
  let total := angles.length
  let numToReplace := total - (round (fraction * total)).toNat
  if method = "random" then
    Except.ok ((seededShuffle seed (List.range total)).take numToReplace)
  else if method = "probabilistic" then
    Except.ok ((seededShuffle (lcgNext (seed + sigma.num.natAbs)) (List.range total)).take numToReplace)
  else Except.error (selectErrMsg method)

/-- Modelled from the spec: `_replace` — replace every given angle with a
Clifford angle according to the policy (`closest`, `random` or
`probabilistic`); unrecognised policy names are a configuration error naming
the bad value. -/
def _replace (angles : List ℚ) (method : String) (sigmaSelect sigmaReplace : ℚ) (seed : ℕ) :
    Except String (List ℚ) :=
  if method = "closest" then
    Except.ok (angles.map _closest_clifford)
  else if method = "random" then
    Except.ok (angles.enum.map fun p => _random_clifford (seed + p.1))
  else if method = "probabilistic" then
    Except.ok (angles.enum.map fun p => _probabilistic_angle_to_clifford p.2 sigmaReplace (seed + p.1))
  else Except.error (replaceErrMsg method)

/-- A gate of the circuit model: Z-rotations carry an angle (units of pi);
the other gate kinds of the excerpt's decomposed gate set are opaque. -/
inductive Op : Type
  | rz (q : ℕ) (a : ℚ) : Op
  | rx (q : ℕ) (a : ℚ) : Op
  | x (q : ℕ) : Op
  | cx (q1 q2 : ℕ) : Op
  | measure (q : ℕ) : Op
deriving DecidableEq

/-- A circuit: a sequence of gate operations. -/
structure Circuit : Type where
  ops : List Op
deriving DecidableEq

/-- The qubit indices an operation acts on. -/
def Op.qubits : Op → List ℕ
  | .rz q _ => [q]
  | .rx q _ => [q]
  | .x q => [q]
  | .cx q1 q2 => [q1, q2]
  | .measure q => [q]

/-- The set of qubits a circuit acts on (`circuit.all_qubits()`). -/
def Circuit.qubitSet (c : Circuit) : Finset ℕ :=
  (c.ops.flatMap Op.qubits).toFinset

/-- Whether an operation is a non-Clifford Z-rotation. -/
def isNCRz : Op → Bool
  | .rz _ a => !_is_clifford_angle a
  | _ => false

/-- Modelled from the spec: `count_non_cliffords` — the number of Z-rotation
gates whose angle is not a Clifford angle. -/
def count_non_cliffords (c : Circuit) : ℕ :=
  (c.ops.filter isNCRz).length

/-- The angles of the non-Clifford Z-rotations, in circuit order. -/
def nonCliffordAngles (c : Circuit) : List ℚ :=
  c.ops.filterMap fun op =>
    match op with
    | .rz _ a => if _is_clifford_angle a then none else some a
    | _ => none

/-- Rewrite the circuit's gate list, giving the `j`-th non-Clifford
Z-rotation (counting from `j0`) the angle `f j`; all other gates are kept. -/
def rebuild (f : ℕ → ℚ) : List Op → ℕ → List Op
  | [], _ => []
  | .rz q a :: rest, j =>
    if _is_clifford_angle a then .rz q a :: rebuild f rest j
    else .rz q (f j) :: rebuild f rest (j + 1)
  | op :: rest, j => op :: rebuild f rest j

/-- Modelled from the spec: `_map_to_near_clifford` — select which
non-Clifford angles to replace, replace them per the replacement policy, and
rebuild the circuit with the new angles (all other gates unchanged). -/
def _map_to_near_clifford (c : Circuit) (fraction : ℚ) (methodSelect methodReplace : String)
    (sigmaSelect sigmaReplace : ℚ) (seed : ℕ) : Except String Circuit :=
  let origAngles := nonCliffordAngles c
  match _select origAngles fraction methodSelect sigmaSelect seed with
  | .error e => .error e
  | .ok toChange =>
    match _replace (toChange.map fun i => origAngles.getD i 0) methodReplace
        sigmaSelect sigmaReplace (lcgNext seed) with
    | .error e => .error e
    | .ok newAngles =>
      .ok ⟨rebuild (fun j => ((toChange.zip newAngles).lookup j).getD (origAngles.getD j 0)) c.ops 0⟩

/-- Monadic map specialised to `Except`, with the error of the first failing
element. -/
def mapExcept (f : ℕ → Except String Circuit) : List ℕ → Except String (List Circuit)
  | [] => .ok []
  | i :: is =>
    match f i, mapExcept f is with
    | .ok c, .ok cs => .ok (c :: cs)
    | .error e, _ => .error e
    | .ok _, .error e => .error e

/-- Modelled from the spec: `generate_training_circuits` — produce `n`
near-Clifford variant circuits of the input circuit, each built by
`_map_to_near_clifford` with its own seed. -/
def generate_training_circuits (c : Circuit) (n : ℕ) (fraction : ℚ)
    (methodSelect methodReplace : String) (sigmaSelect sigmaReplace : ℚ) (seed : ℕ) :
    Except String (List Circuit) :=
  mapExcept (fun i => _map_to_near_clifford c fraction methodSelect methodReplace
    sigmaSelect sigmaReplace (seed + i)) (List.range n)

/-! ### Stateful method-call embedding

For the frame/immutability claim the method calls are embedded with explicit
state passing: the receiver object (resp. the input circuit) is threaded
through the loop of the method body and handed back on return, so that "the
object after the call" is an explicit component of the result. -/

/-- The mutable environment of a `partition()` call: the receiver, the local
working copy `paulis = copy.deepcopy(self._paulis)` and the group list
`plists`. -/
structure PartitionState : Type where
  self : Observable
  working : List PauliString
  plists : List (List PauliString)

/-- The body of the `while paulis:` loop of `partition()`, threading the
receiver object through every iteration. -/
def partitionLoopStAux (o : Observable) : List PauliString → List (List PauliString) → PartitionState
  | [], pls => ⟨o, [], pls⟩
  | t :: rest, pls =>
    match placeFirst t pls with
    | some pls2 => partitionLoopStAux o rest pls2
    | none => partitionLoopStAux o rest (pls ++ [[t]])

/-- The `while paulis:` loop of `partition()`, threading the receiver. -/
def partitionLoopSt (s : PartitionState) : PartitionState :=
  partitionLoopStAux s.self s.working s.plists

/-- `partition()` as a method call: result together with the posterior
receiver state. -/
def Observable.partitionMeth (o : Observable) : Finset (Finset PauliString) × Observable :=
  let s := partitionLoopSt ⟨o, o.terms, []⟩
  ((s.plists.map List.toFinset).toFinset, s.self)

/-- The `for pauli in self._paulis: matrix += ...` loop of `matrix()`,
threading the receiver. -/
def matrixLoopSt (qi : List ℕ) :
    List PauliString →
      Observable × Matrix (Fin (2 ^ qi.length)) (Fin (2 ^ qi.length)) GaussianInt →
      Observable × Matrix (Fin (2 ^ qi.length)) (Fin (2 ^ qi.length)) GaussianInt
  | [], s => s
  | p :: rest, (o, acc) => matrixLoopSt qi rest (o, acc + p.matrix qi)

/-- `matrix()` as a method call: result together with the posterior receiver
state. -/
def Observable.matrixMeth (o : Observable) :
    Matrix (Fin (2 ^ o.nqubits)) (Fin (2 ^ o.nqubits)) GaussianInt × Observable :=
  let s := matrixLoopSt o.qubit_indices o.terms (o, 0)
  (s.2, s.1)

/-- `mapExcept` threading the source circuit through the loop. -/
def mapExceptSt (f : Circuit → ℕ → Except String Circuit) :
    List ℕ → Circuit → Except String (List Circuit) × Circuit
  | [], c => (.ok [], c)
  | i :: is, c =>
    match f c i, mapExceptSt f is c with
    | .ok c2, (.ok cs, c3) => (.ok (c2 :: cs), c3)
    | .error e, (_, c3) => (.error e, c3)
    | .ok _, (.error e, c3) => (.error e, c3)

/-- `generate_training_circuits` as a call that hands back the source
circuit it was given. -/
def generateMeth (c : Circuit) (n : ℕ) (fraction : ℚ) (methodSelect methodReplace : String)
    (sigmaSelect sigmaReplace : ℚ) (seed : ℕ) : Except String (List Circuit) × Circuit :=
  mapExceptSt (fun cc i => _map_to_near_clifford cc fraction methodSelect methodReplace
    sigmaSelect sigmaReplace (seed + i)) (List.range n) c

/-! ### Concrete instances for counterexamples and witnesses -/

/-- `X` on qubit 0. -/
def psX0 : PauliString := ⟨[(0, .X)], 1⟩

/-- `Z` on qubit 1. -/
def psZ1 : PauliString := ⟨[(1, .Z)], 1⟩

/-- `Z` on qubit 0. -/
def psZ0 : PauliString := ⟨[(0, .Z)], 1⟩

/-- `X` on qubit 1. -/
def psX1 : PauliString := ⟨[(1, .X)], 1⟩

/-- An observable over the term set `{X₀, Z₁, Z₀}` in one iteration order. -/
def obsA : Observable := ⟨[psX0, psZ1, psZ0]⟩

/-- The same term set in another iteration order. -/
def obsB : Observable := ⟨[psZ0, psZ1, psX0]⟩

/-- A small concrete circuit with three non-Clifford Z-rotations. -/
def witCircuit : Circuit :=
  ⟨[.rz 0 (1/3), .cx 0 1, .rz 1 (1/5), .rz 0 (1/2), .x 1, .rz 1 (1/7), .measure 0]⟩

/-! ## Theorems -/

/-! ### Partition helper lemmas -/

theorem can_be_measured_with_refl (p : PauliString) : p.can_be_measured_with p = true := by
  simp only [PauliString.can_be_measured_with, List.all_eq_true]
  intro q _
  cases p.opAt q <;> simp

theorem can_be_measured_with_symm (a b : PauliString) :
    a.can_be_measured_with b = b.can_be_measured_with a := by
  rw [Bool.eq_iff_iff]
  simp only [PauliString.can_be_measured_with, List.all_eq_true, List.mem_append]
  constructor <;> intro h q hq <;> have h2 := h q (Or.symm hq) <;> revert h2 <;>
    cases a.opAt q <;> cases b.opAt q <;> simp [eq_comm]

theorem placeFirst_some_flatten {t : PauliString} {gs gs2 : List (List PauliString)}
    (h : placeFirst t gs = some gs2) : gs2.flatten.Perm (t :: gs.flatten) := by
  induction gs generalizing gs2 with
  | nil => simp [placeFirst] at h
  | cons g gs ih =>
    rw [placeFirst] at h
    by_cases hfit : fitsGroup t g
    · rw [if_pos hfit] at h
      cases h
      simpa [List.append_assoc] using List.perm_middle
    · rw [if_neg hfit, Option.map_eq_some'] at h
      obtain ⟨r, hr, rfl⟩ := h
      have h1 : (g ++ r.flatten).Perm (g ++ (t :: gs.flatten)) := (ih hr).append_left g
      have h2 : (g ++ t :: gs.flatten).Perm (t :: (g ++ gs.flatten)) := List.perm_middle
      simpa using h1.trans h2

theorem partitionLoop_flatten (rest : List PauliString) (plists : List (List PauliString)) :
    (partitionLoop plists rest).flatten.Perm (plists.flatten ++ rest) := by
  induction rest generalizing plists with
  | nil => simp [partitionLoop]
  | cons t rest ih =>
    rw [partitionLoop]
    cases h : placeFirst t plists with
    | some pls2 =>
      have h1 : (partitionLoop pls2 rest).flatten.Perm (pls2.flatten ++ rest) := ih pls2
      have h2 : (pls2.flatten ++ rest).Perm ((t :: plists.flatten) ++ rest) :=
        (placeFirst_some_flatten h).append_right rest
      have h3 : (plists.flatten ++ t :: rest).Perm (t :: (plists.flatten ++ rest)) :=
        List.perm_middle
      exact (h1.trans h2).trans h3.symm
    | none =>
      have h1 : (partitionLoop (plists ++ [[t]]) rest).flatten.Perm
          ((plists ++ [[t]]).flatten ++ rest) := ih _
      simpa using h1

theorem placeFirst_some_compat {t : PauliString} {gs gs2 : List (List PauliString)}
    (hok : ∀ g ∈ gs, ∀ p ∈ g, ∀ q ∈ g, p.can_be_measured_with q = true)
    (h : placeFirst t gs = some gs2) :
    ∀ g ∈ gs2, ∀ p ∈ g, ∀ q ∈ g, p.can_be_measured_with q = true := by
  induction gs generalizing gs2 with
  | nil => simp [placeFirst] at h
  | cons g gs ih =>
    rw [placeFirst] at h
    by_cases hfit : fitsGroup t g
    · rw [if_pos hfit] at h
      cases h
      have hfit2 : ∀ p ∈ g, t.can_be_measured_with p = true := by
        simpa [fitsGroup, List.all_eq_true] using hfit
      intro g2 hg2 p hp q hq
      rcases List.mem_cons.1 hg2 with rfl | hg2
      · rcases List.mem_append.1 hp with hp | hp <;> rcases List.mem_append.1 hq with hq | hq
        · exact hok g (List.mem_cons_self _ _) p hp q hq
        · rw [List.mem_singleton.1 hq, can_be_measured_with_symm]
          exact hfit2 p hp
        · rw [List.mem_singleton.1 hp]
          exact hfit2 q hq
        · rw [List.mem_singleton.1 hp, List.mem_singleton.1 hq]
          exact can_be_measured_with_refl t
      · exact hok g2 (List.mem_cons_of_mem _ hg2) p hp q hq
    · rw [if_neg hfit, Option.map_eq_some'] at h
      obtain ⟨r, hr, rfl⟩ := h
      intro g2 hg2 p hp q hq
      rcases List.mem_cons.1 hg2 with rfl | hg2
      · exact hok g2 (List.mem_cons_self _ _) p hp q hq
      · exact ih (fun g3 hg3 => hok g3 (List.mem_cons_of_mem _ hg3)) hr g2 hg2 p hp q hq

theorem partitionLoop_compat (rest : List PauliString) (plists : List (List PauliString))
    (hok : ∀ g ∈ plists, ∀ p ∈ g, ∀ q ∈ g, p.can_be_measured_with q = true) :
    ∀ g ∈ partitionLoop plists rest, ∀ p ∈ g, ∀ q ∈ g, p.can_be_measured_with q = true := by
  induction rest generalizing plists with
  | nil => simpa [partitionLoop] using hok
  | cons t rest ih =>
    rw [partitionLoop]
    cases h : placeFirst t plists with
    | some pls2 => exact ih pls2 (placeFirst_some_compat hok h)
    | none =>
      refine ih _ (fun g hg => ?_)
      rcases List.mem_append.1 hg with hg | hg
      · exact hok g hg
      · intro p hp q hq
        rw [List.mem_singleton.1 hg] at hp hq
        rw [List.mem_singleton.1 hp, List.mem_singleton.1 hq]
        exact can_be_measured_with_refl t

theorem toFinset_map_biUnion (gs : List (List PauliString)) :
    ((gs.map List.toFinset).toFinset).biUnion id = gs.flatten.toFinset := by
  induction gs with
  | nil => simp
  | cons g gs ih => simp [Finset.biUnion_insert, ih]

theorem partitionLoop_flatten_toFinset (l : List PauliString) :
    (partitionLoop [] l).flatten.toFinset = l.toFinset := by
  have h := partitionLoop_flatten l []
  simp only [List.flatten_nil, List.nil_append] at h
  exact List.toFinset_eq_of_perm _ _ h

/-- C1: for an `Observable` built from any term set, `partition()` returns a
set of groups in which any two terms of a common group are pairwise
compatible (can be measured simultaneously), whose union is exactly the
term set, and whose groups are pairwise disjoint (a partition, not a
cover). -/
theorem observable_partition_is_valid_partition (o : Observable) (h : o.terms.Nodup) :
    (∀ g ∈ o.partition, ∀ p ∈ g, ∀ q ∈ g, p.can_be_measured_with q = true) ∧
    o.partition.biUnion id = o.terms.toFinset ∧
    (∀ g1 ∈ o.partition, ∀ g2 ∈ o.partition, g1 ≠ g2 → ∀ p ∈ g1, p ∉ g2) := by
  refine ⟨?_, ?_, ?_⟩
  · intro g hg p hp q hq
    simp only [Observable.partition, List.mem_toFinset, List.mem_map] at hg
    obtain ⟨l, hl, rfl⟩ := hg
    exact partitionLoop_compat o.terms [] (by simp) l hl p (List.mem_toFinset.1 hp)
      q (List.mem_toFinset.1 hq)
  · rw [Observable.partition, toFinset_map_biUnion, partitionLoop_flatten_toFinset]
  · intro g1 hg1 g2 hg2 hne p hp1 hp2
    simp only [Observable.partition, List.mem_toFinset, List.mem_map] at hg1 hg2
    obtain ⟨l1, hl1, rfl⟩ := hg1
    obtain ⟨l2, hl2, rfl⟩ := hg2
    have hflat : (partitionLoop [] o.terms).flatten.Perm o.terms := by
      have h0 := partitionLoop_flatten o.terms []
      simpa using h0
    have hnd : (partitionLoop [] o.terms).flatten.Nodup := hflat.symm.nodup h
    rw [List.nodup_flatten] at hnd
    have hll : l1 ≠ l2 := fun hll => hne (by rw [hll])
    have hdisj : l1.Disjoint l2 :=
      hnd.2.forall (fun _ _ d => d.symm) hl1 hl2 hll
    exact hdisj (List.mem_toFinset.1 hp1) (List.mem_toFinset.1 hp2)

/-- Witness for C1 at a concrete observable over `{X₀, Z₁, Z₀}`. -/
theorem observable_partition_is_valid_partition_witness :
    (∀ g ∈ (Observable.ofTerms [psX0, psZ1, psZ0]).partition, ∀ p ∈ g, ∀ q ∈ g,
        p.can_be_measured_with q = true) ∧
    (Observable.ofTerms [psX0, psZ1, psZ0]).partition.biUnion id =
      (Observable.ofTerms [psX0, psZ1, psZ0]).terms.toFinset ∧
    (∀ g1 ∈ (Observable.ofTerms [psX0, psZ1, psZ0]).partition,
      ∀ g2 ∈ (Observable.ofTerms [psX0, psZ1, psZ0]).partition, g1 ≠ g2 → ∀ p ∈ g1, p ∉ g2) :=
  observable_partition_is_valid_partition _ (by decide)

theorem placeFirst_eq_firstFitIndex (t : PauliString) (gs : List (List PauliString)) :
    placeFirst t gs = (firstFitIndex t gs).map (fun i => gs.set i (gs.getD i [] ++ [t])) := by
  induction gs with
  | nil => rfl
  | cons g gs ih =>
    rw [placeFirst, firstFitIndex]
    by_cases hfit : fitsGroup t g
    · rw [if_pos hfit, if_pos (show (g.all fun p => t.can_be_measured_with p) = true from hfit)]
      simp
    · rw [if_neg hfit, if_neg (show ¬(g.all fun p => t.can_be_measured_with p) = true from hfit),
        ih, Option.map_map]
      cases firstFitIndex t gs with
      | none => rfl
      | some i => simp [Function.comp, List.getD_cons_succ]

theorem partitionLoop_eq_foldl (terms : List PauliString) (plists : List (List PauliString)) :
    partitionLoop plists terms = terms.foldl placeTerm plists := by
  induction terms generalizing plists with
  | nil => rfl
  | cons t rest ih =>
    rw [partitionLoop, List.foldl_cons]
    have hpt : (match placeFirst t plists with
        | some pls2 => pls2
        | none => plists ++ [[t]]) = placeTerm plists t := by
      rw [placeFirst_eq_firstFitIndex, placeTerm]
      cases firstFitIndex t plists <;> rfl
    cases h : placeFirst t plists with
    | some pls2 =>
      rw [h] at hpt
      show partitionLoop pls2 rest = _
      rw [ih, show placeTerm plists t = pls2 from hpt.symm]
    | none =>
      rw [h] at hpt
      show partitionLoop (plists ++ [[t]]) rest = _
      rw [ih, show placeTerm plists t = plists ++ [[t]] from hpt.symm]

/-- C2: `Observable.partition()` implements greedy first-fit grouping:
each term, in the term set's iteration order, goes into the first existing
group with which it is pairwise compatible, else starts a new group; the
groups are returned as a set of frozensets. -/
theorem observable_partition_eq_greedy_first_fit (o : Observable) :
    o.partition = ((greedyFirstFit o.terms).map List.toFinset).toFinset := by
  rw [Observable.partition, greedyFirstFit, partitionLoop_eq_foldl]

/-- C8 counterexample: two observables over the same term set
`{X₀, Z₁, Z₀}` whose (implementation-defined) iteration orders differ give
different group sets, so the result of `partition()` is not determined by
the Observable's term set alone. -/
theorem partition_not_determined_by_term_set :
    obsA.terms.toFinset = obsB.terms.toFinset ∧ obsA.partition ≠ obsB.partition := by
  constructor
  · decide
  · decide

/-- C8 amended: operations are deterministic as functions of their explicit
inputs (term iteration order and random seed); `partition()` is a function
of the term iteration order but not of the term set alone — for two
iteration orders of the same term set the group sets may differ, though the
terms they cover are the same. -/
theorem partition_covers_same_terms_of_perm (o1 o2 : Observable)
    (h : o1.terms.Perm o2.terms) :
    o1.partition.biUnion id = o2.partition.biUnion id := by
  rw [Observable.partition, Observable.partition, toFinset_map_biUnion, toFinset_map_biUnion,
    partitionLoop_flatten_toFinset, partitionLoop_flatten_toFinset]
  exact List.toFinset_eq_of_perm _ _ h

/-- Witness for the amended C8 at the two concrete iteration orders. -/
theorem partition_covers_same_terms_of_perm_witness :
    obsA.partition.biUnion id = obsB.partition.biUnion id :=
  partition_covers_same_terms_of_perm obsA obsB (by decide)

/-- C10: the empty observable has `nterms = 0`, no qubit indices, an empty
partition and the 1×1 (`2^0 = 1`) zero matrix; none of these operations
fails. -/
theorem empty_observable_behavior :
    (Observable.ofTerms []).nterms = 0 ∧
    (Observable.ofTerms []).qubit_indices = [] ∧
    (Observable.ofTerms []).partition = ∅ ∧
    (Observable.ofTerms []).nqubits = 0 ∧
    (Observable.ofTerms []).matrix = 0 := by
  have hq : (Observable.ofTerms []).qubit_indices = [] := by
    rw [Observable.qubit_indices, show (Observable.ofTerms []).qubitFinset = ∅ from rfl,
      Finset.sort_empty]
  refine ⟨rfl, hq, rfl, ?_, rfl⟩
  rw [Observable.nqubits, hq]
  rfl

/-! ### Matrix additivity -/

theorem foldl_add_eq_sum {α M : Type} [AddCommMonoid M] (f : α → M) (l : List α) (init : M) :
    l.foldl (fun acc a => acc + f a) init = init + (l.map f).sum := by
  induction l generalizing init with
  | nil => simp
  | cons a l ih => simp [ih, add_assoc]

/-- C3: `Observable.matrix()` returns the `2^nqubits × 2^nqubits` matrix
equal to the exact sum, over the Observable's term set, of each term's
matrix representation embedded along the Observable's full sorted qubit
index list. -/
theorem observable_matrix_eq_sum_of_terms (o : Observable) (h : o.terms.Nodup) :
    o.matrix = ∑ p ∈ o.terms.toFinset, p.matrix o.qubit_indices := by
  rw [Observable.matrix, foldl_add_eq_sum, zero_add, ← List.sum_toFinset _ h]

/-- Witness for C3 at the concrete two-term observable `Z₀ + X₁`
(`Z⊗I + I⊗X` on two qubits). -/
theorem observable_matrix_eq_sum_of_terms_witness :
    (Observable.ofTerms [psZ0, psX1]).matrix =
      ∑ p ∈ (Observable.ofTerms [psZ0, psX1]).terms.toFinset,
        p.matrix (Observable.ofTerms [psZ0, psX1]).qubit_indices :=
  observable_matrix_eq_sum_of_terms _ (by decide)

/-! ### Frame: method calls do not mutate their receiver or input -/

theorem partitionLoopStAux_self (o : Observable) :
    ∀ (w : List PauliString) (pls : List (List PauliString)),
      (partitionLoopStAux o w pls).self = o := by
  intro w
  induction w with
  | nil => intro pls; rfl
  | cons t rest ih =>
    intro pls
    rw [partitionLoopStAux]
    cases placeFirst t pls with
    | some pls2 => exact ih pls2
    | none => exact ih (pls ++ [[t]])

theorem matrixLoopSt_fst (qi : List ℕ) :
    ∀ (l : List PauliString)
      (s : Observable × Matrix (Fin (2 ^ qi.length)) (Fin (2 ^ qi.length)) GaussianInt),
      (matrixLoopSt qi l s).1 = s.1 := by
  intro l
  induction l with
  | nil => intro s; rfl
  | cons p rest ih => intro s; exact ih _

theorem mapExceptSt_snd (f : Circuit → ℕ → Except String Circuit) :
    ∀ (is : List ℕ) (c : Circuit), (mapExceptSt f is c).2 = c := by
  intro is
  induction is with
  | nil => intro c; rfl
  | cons i is ih =>
    intro c
    have hc3 := ih c
    rw [mapExceptSt]
    rcases hf : f c i with e | c2 <;> rcases hm : mapExceptSt f is c with ⟨res, c3⟩ <;>
      rw [hm] at hc3 <;> rcases res with e2 | cs <;> simpa using hc3

/-- C9: the embedded method calls leave their state unchanged — the
observable handed back by `partition()` and `matrix()` equals the receiver
(so its term set, `nterms` and `qubit_indices` are unchanged), and
`generate_training_circuits` hands back the input circuit it was given. -/
theorem method_calls_do_not_mutate :
    (∀ o : Observable, o.partitionMeth.2 = o ∧ o.matrixMeth.2 = o ∧
      o.partitionMeth.2.nterms = o.nterms ∧
      o.partitionMeth.2.qubit_indices = o.qubit_indices) ∧
    (∀ (c : Circuit) (n : ℕ) (fraction sigmaSelect sigmaReplace : ℚ)
      (methodSelect methodReplace : String) (seed : ℕ),
      (generateMeth c n fraction methodSelect methodReplace
        sigmaSelect sigmaReplace seed).2 = c) := by
  constructor
  · intro o
    have h1 : o.partitionMeth.2 = o := partitionLoopStAux_self o o.terms []
    have h2 : o.matrixMeth.2 = o := matrixLoopSt_fst o.qubit_indices o.terms (o, 0)
    exact ⟨h1, h2, by rw [h1], by rw [h1]⟩
  · intro c n fraction sigmaSelect sigmaReplace methodSelect methodReplace seed
    exact mapExceptSt_snd _ _ c

/-! ### Angle arithmetic -/

theorem amod2_nonneg (x : ℚ) : 0 ≤ amod2 x := by
  rw [amod2]
  have h := Int.floor_le (x / 2)
  linarith

theorem amod2_lt_two (x : ℚ) : amod2 x < 2 := by
  rw [amod2]
  have h := Int.lt_floor_add_one (x / 2)
  linarith

theorem amod2_eq (x y : ℚ) (k : ℤ) (h0 : 0 ≤ y) (h2 : y < 2) (hk : x = y + 2 * k) :
    amod2 x = y := by
  rw [amod2, hk]
  have hf : ⌊(y + 2 * (k : ℚ)) / 2⌋ = k := by
    rw [show (y + 2 * (k : ℚ)) / 2 = y / 2 + k by ring, Int.floor_add_int]
    have hy : ⌊y / 2⌋ = 0 := by
      rw [Int.floor_eq_zero_iff, Set.mem_Ico]
      exact ⟨by linarith, by linarith⟩
    omega
  rw [hf]
  ring

theorem amod2_decomp (x : ℚ) : x = amod2 x + 2 * ⌊x / 2⌋ := by
  rw [amod2]
  ring

theorem amod2_sub_of_le (a c : ℚ) (hc0 : 0 ≤ c) (h : c ≤ amod2 a) :
    amod2 (a - c) = amod2 a - c := by
  refine amod2_eq _ _ ⌊a / 2⌋ (by linarith) ?_ ?_
  · have := amod2_lt_two a
    linarith
  · have := amod2_decomp a
    linarith

theorem amod2_sub_of_lt (a c : ℚ) (hc0 : 0 ≤ c) (hc2 : c < 2) (h : amod2 a < c) :
    amod2 (a - c) = amod2 a - c + 2 := by
  refine amod2_eq _ _ (⌊a / 2⌋ - 1) ?_ (by linarith) ?_
  · have := amod2_nonneg a
    linarith
  · have := amod2_decomp a
    push_cast
    linarith

theorem closest_clifford_mem (a : ℚ) : _closest_clifford a ∈ cliffordAngles := by
  rw [_closest_clifford]
  simp only [cliffordAngles, List.tail_cons, List.headD_cons, List.foldl_cons, List.foldl_nil,
    List.mem_cons, List.not_mem_nil]
  split_ifs <;> norm_num

theorem is_clifford_angle_of_mem (a : ℚ) (h : a ∈ cliffordAngles) :
    _is_clifford_angle a = true := by
  have hb : 0 ≤ a ∧ a < 2 := by
    simp only [cliffordAngles, List.mem_cons, List.not_mem_nil, or_false] at h
    rcases h with rfl | rfl | rfl | rfl <;> norm_num
  rw [_is_clifford_angle, decide_eq_true_iff, amod2_eq a a 0 hb.1 hb.2 (by push_cast; ring)]
  exact h

set_option maxHeartbeats 3200000 in
/-- C6: every angle strictly within `π/4` (circularly) of a canonical
Clifford angle is mapped to that canonical angle by `_closest_clifford`
(with ties at the boundary broken by angle order; strictly inside the window
no tie arises). -/
theorem closest_clifford_correct (a c : ℚ) (hc : c ∈ cliffordAngles) (hd : cdist a c < 1/4) :
    _closest_clifford a = c := by
  have hr0 := amod2_nonneg a
  have hr2 := amod2_lt_two a
  have hA0 : amod2 (a - 0) = amod2 a := by
    rw [amod2_sub_of_le a 0 le_rfl hr0, sub_zero]
  simp only [cliffordAngles, List.mem_cons, List.not_mem_nil, or_false] at hc
  rw [_closest_clifford]
  simp only [cliffordAngles, List.tail_cons, List.headD_cons, List.foldl_cons, List.foldl_nil]
  rcases lt_or_le (amod2 a) (1/2 : ℚ) with h1 | h1
  · have hA1 : amod2 (a - 1/2) = amod2 a + 3/2 := by
      rw [amod2_sub_of_lt a (1/2) (by norm_num) (by norm_num) h1]
      ring
    have hA2 : amod2 (a - 1) = amod2 a + 1 := by
      rw [amod2_sub_of_lt a 1 (by norm_num) (by norm_num) (by linarith)]
      ring
    have hA3 : amod2 (a - 3/2) = amod2 a + 1/2 := by
      rw [amod2_sub_of_lt a (3/2) (by norm_num) (by norm_num) (by linarith)]
      ring
    have hd0 : cdist a 0 = amod2 a := by
      rw [cdist, hA0, min_def]; split_ifs <;> linarith
    have hd1 : cdist a (1/2) = 1/2 - amod2 a := by
      rw [cdist, hA1, min_def]; split_ifs <;> linarith
    have hd2 : cdist a 1 = 1 - amod2 a := by
      rw [cdist, hA2, min_def]; split_ifs <;> linarith
    have hd3 : cdist a (3/2) = amod2 a + 1/2 := by
      rw [cdist, hA3, min_def]; split_ifs <;> linarith
    rcases hc with rfl | rfl | rfl | rfl <;>
      (simp only [hd0, hd1, hd2, hd3] at hd
       simp only [apply_ite (cdist a), hd0, hd1, hd2, hd3]
       split_ifs <;> linarith)
  · rcases lt_or_le (amod2 a) (1 : ℚ) with h2 | h2
    · have hA1 : amod2 (a - 1/2) = amod2 a - 1/2 :=
        amod2_sub_of_le a (1/2) (by norm_num) h1
      have hA2 : amod2 (a - 1) = amod2 a + 1 := by
        rw [amod2_sub_of_lt a 1 (by norm_num) (by norm_num) h2]
        ring
      have hA3 : amod2 (a - 3/2) = amod2 a + 1/2 := by
        rw [amod2_sub_of_lt a (3/2) (by norm_num) (by norm_num) (by linarith)]
        ring
      have hd0 : cdist a 0 = amod2 a := by
        rw [cdist, hA0, min_def]; split_ifs <;> linarith
      have hd1 : cdist a (1/2) = amod2 a - 1/2 := by
        rw [cdist, hA1, min_def]; split_ifs <;> linarith
      have hd2 : cdist a 1 = 1 - amod2 a := by
        rw [cdist, hA2, min_def]; split_ifs <;> linarith
      have hd3 : cdist a (3/2) = 3/2 - amod2 a := by
        rw [cdist, hA3, min_def]; split_ifs <;> linarith
      rcases hc with rfl | rfl | rfl | rfl <;>
        (simp only [hd0, hd1, hd2, hd3] at hd
         simp only [apply_ite (cdist a), hd0, hd1, hd2, hd3]
         split_ifs <;> linarith)
    · rcases lt_or_le (amod2 a) (3/2 : ℚ) with h3 | h3
      · have hA1 : amod2 (a - 1/2) = amod2 a - 1/2 :=
          amod2_sub_of_le a (1/2) (by norm_num) (by linarith)
        have hA2 : amod2 (a - 1) = amod2 a - 1 :=
          amod2_sub_of_le a 1 (by norm_num) h2
        have hA3 : amod2 (a - 3/2) = amod2 a + 1/2 := by
          rw [amod2_sub_of_lt a (3/2) (by norm_num) (by norm_num) h3]
          ring
        have hd0 : cdist a 0 = 2 - amod2 a := by
          rw [cdist, hA0, min_def]; split_ifs <;> linarith
        have hd1 : cdist a (1/2) = amod2 a - 1/2 := by
          rw [cdist, hA1, min_def]; split_ifs <;> linarith
        have hd2 : cdist a 1 = amod2 a - 1 := by
          rw [cdist, hA2, min_def]; split_ifs <;> linarith
        have hd3 : cdist a (3/2) = 3/2 - amod2 a := by
          rw [cdist, hA3, min_def]; split_ifs <;> linarith
        rcases hc with rfl | rfl | rfl | rfl <;>
          (simp only [hd0, hd1, hd2, hd3] at hd
           simp only [apply_ite (cdist a), hd0, hd1, hd2, hd3]
           split_ifs <;> linarith)
      · have hA1 : amod2 (a - 1/2) = amod2 a - 1/2 :=
          amod2_sub_of_le a (1/2) (by norm_num) (by linarith)
        have hA2 : amod2 (a - 1) = amod2 a - 1 :=
          amod2_sub_of_le a 1 (by norm_num) (by linarith)
        have hA3 : amod2 (a - 3/2) = amod2 a - 3/2 :=
          amod2_sub_of_le a (3/2) (by norm_num) h3
        have hd0 : cdist a 0 = 2 - amod2 a := by
          rw [cdist, hA0, min_def]; split_ifs <;> linarith
        have hd1 : cdist a (1/2) = 5/2 - amod2 a := by
          rw [cdist, hA1, min_def]; split_ifs <;> linarith
        have hd2 : cdist a 1 = amod2 a - 1 := by
          rw [cdist, hA2, min_def]; split_ifs <;> linarith
        have hd3 : cdist a (3/2) = amod2 a - 3/2 := by
          rw [cdist, hA3, min_def]; split_ifs <;> linarith
        rcases hc with rfl | rfl | rfl | rfl <;>
          (simp only [hd0, hd1, hd2, hd3] at hd
           simp only [apply_ite (cdist a), hd0, hd1, hd2, hd3]
           split_ifs <;> linarith)

/-- Witness for C6: `2π/5` (i.e. `2/5` in units of pi) is within `π/4` of
`π/2` and is mapped to it. -/
theorem closest_clifford_correct_witness : _closest_clifford (2/5) = 1/2 :=
  closest_clifford_correct (2/5) (1/2) (by norm_num [cliffordAngles])
    (by norm_num [cdist, amod2, min_def])

/-! ### Replacement closure and policy errors -/

theorem cliffordAngles_getD_mem (k : ℕ) : cliffordAngles.getD (k % 4) 0 ∈ cliffordAngles := by
  have h4 : k % 4 < cliffordAngles.length := by
    have h := Nat.mod_lt k (y := 4) (by norm_num)
    simpa [cliffordAngles] using h
  rw [List.getD_eq_getElem _ _ h4]
  exact List.getElem_mem h4

theorem random_clifford_mem (seed : ℕ) : _random_clifford seed ∈ cliffordAngles :=
  cliffordAngles_getD_mem _

theorem probabilistic_clifford_mem (a sigma : ℚ) (seed : ℕ) :
    _probabilistic_angle_to_clifford a sigma seed ∈ cliffordAngles :=
  cliffordAngles_getD_mem _

theorem replace_ok_all_clifford {angles : List ℚ} {m : String} {ss sr : ℚ} {seed : ℕ}
    {out : List ℚ} (hm : m ∈ replaceMethods)
    (hout : _replace angles m ss sr seed = Except.ok out) :
    ∀ x ∈ out, _is_clifford_angle x = true := by
  simp only [replaceMethods, List.mem_cons, List.not_mem_nil, or_false] at hm
  rcases hm with rfl | rfl | rfl
  · rw [_replace, if_pos rfl] at hout
    injection hout with hout
    intro x hx
    rw [← hout] at hx
    obtain ⟨y, _, rfl⟩ := List.mem_map.1 hx
    exact is_clifford_angle_of_mem _ (closest_clifford_mem y)
  · rw [_replace, if_neg (by decide), if_pos rfl] at hout
    injection hout with hout
    intro x hx
    rw [← hout] at hx
    obtain ⟨p, _, rfl⟩ := List.mem_map.1 hx
    exact is_clifford_angle_of_mem _ (random_clifford_mem _)
  · rw [_replace, if_neg (by decide), if_neg (by decide), if_pos rfl] at hout
    injection hout with hout
    intro x hx
    rw [← hout] at hx
    obtain ⟨p, _, rfl⟩ := List.mem_map.1 hx
    exact is_clifford_angle_of_mem _ (probabilistic_clifford_mem _ _ _)

/-- C5: for every sequence of angles and every recognised replacement policy,
every angle produced by `_replace` satisfies `_is_clifford_angle`. -/
theorem replace_closure (angles : List ℚ) (method : String) (sigmaSelect sigmaReplace : ℚ)
    (seed : ℕ) (out : List ℚ) (hm : method ∈ replaceMethods)
    (hout : _replace angles method sigmaSelect sigmaReplace seed = Except.ok out) :
    ∀ x ∈ out, _is_clifford_angle x = true :=
  replace_ok_all_clifford hm hout

/-- Witness for C5: replacing the non-Clifford angle `π/3` with the
`closest` policy yields `π/2`, which is Clifford. -/
theorem replace_closure_witness : _is_clifford_angle ((1 : ℚ)/2) = true :=
  replace_closure [1/3] "closest" 0 0 0 [1/2] (by decide)
    (by rw [_replace, if_pos rfl]
        norm_num [_closest_clifford, cliffordAngles, cdist, amod2, min_def])
    ((1 : ℚ)/2) (List.mem_singleton.mpr rfl)

/-- C7: calling the selection or replacement operation with an unrecognised
policy name fails immediately with a configuration error naming the invalid
value, producing no other output. -/
theorem unrecognized_policy_errors (angles : List ℚ) (fraction sigmaSelect sigmaReplace : ℚ)
    (seed : ℕ) (method : String) :
    (method ∉ selectMethods →
      _select angles fraction method sigmaSelect seed = Except.error (selectErrMsg method)) ∧
    (method ∉ replaceMethods →
      _replace angles method sigmaSelect sigmaReplace seed = Except.error (replaceErrMsg method)) := by
  constructor
  · intro hm
    simp only [selectMethods, List.mem_cons, List.not_mem_nil, or_false, not_or] at hm
    simp only [_select]
    rw [if_neg hm.1, if_neg hm.2]
  · intro hm
    simp only [replaceMethods, List.mem_cons, List.not_mem_nil, or_false, not_or] at hm
    rw [_replace, if_neg hm.1, if_neg hm.2.1, if_neg hm.2.2]

/-- Witness for C7 at the unrecognised policy name `banana`. -/
theorem unrecognized_policy_errors_witness :
    _select [] 0 "banana" 0 0 = Except.error (selectErrMsg "banana") ∧
    _replace [] "banana" 0 0 0 = Except.error (replaceErrMsg "banana") :=
  ⟨(unrecognized_policy_errors [] 0 0 0 0 "banana").1 (by decide),
   (unrecognized_policy_errors [] 0 0 0 0 "banana").2 (by decide)⟩

/-! ### Selection: sample size, distinctness and range -/

theorem seededShuffle_perm_aux :
    ∀ (n : ℕ) (s : ℕ) (l : List ℕ), l.length ≤ n → (seededShuffle s l).Perm l := by
  intro n
  induction n with
  | zero =>
    intro s l hl
    have hnil : l = [] := List.eq_nil_of_length_eq_zero (Nat.le_zero.1 hl)
    subst hnil
    simp [seededShuffle]
  | succ n ih =>
    intro s l hl
    match l with
    | [] => simp [seededShuffle]
    | x :: xs =>
      simp only [seededShuffle]
      have hi : s % (x :: xs).length < (x :: xs).length := Nat.mod_lt _ (by simp)
      have hlen : ((x :: xs).take (s % (x :: xs).length) ++
          (x :: xs).drop (s % (x :: xs).length + 1)).length ≤ n := by
        simp only [List.length_append, List.length_take, List.length_drop,
          List.length_cons] at hl hi ⊢
        omega
      have hrec := ih (lcgNext s) _ hlen
      have hgetD : (x :: xs).getD (s % (x :: xs).length) 0 =
          (x :: xs)[s % (x :: xs).length] := List.getD_eq_getElem _ _ hi
      rw [hgetD]
      refine List.Perm.trans (List.Perm.cons _ hrec) ?_
      have hsplit : x :: xs = (x :: xs).take (s % (x :: xs).length) ++
          (x :: xs)[s % (x :: xs).length] :: (x :: xs).drop (s % (x :: xs).length + 1) := by
        conv_lhs => rw [← List.take_append_drop (s % (x :: xs).length) (x :: xs)]
        rw [List.drop_eq_getElem_cons hi]
      conv_rhs => rw [hsplit]
      exact List.perm_middle.symm

theorem seededShuffle_perm (s : ℕ) (l : List ℕ) : (seededShuffle s l).Perm l :=
  seededShuffle_perm_aux l.length s l le_rfl

theorem take_shuffle_range_spec (s n k : ℕ) (hk : k ≤ n) :
    ((seededShuffle s (List.range n)).take k).Nodup ∧
    (∀ i ∈ (seededShuffle s (List.range n)).take k, i < n) ∧
    ((seededShuffle s (List.range n)).take k).length = k := by
  have hperm := seededShuffle_perm s (List.range n)
  have hnd : (seededShuffle s (List.range n)).Nodup :=
    hperm.symm.nodup (List.nodup_range n)
  refine ⟨(List.take_sublist _ _).nodup hnd, ?_, ?_⟩
  · intro i hi
    have hmem : i ∈ seededShuffle s (List.range n) := (List.take_sublist _ _).subset hi
    exact List.mem_range.1 (hperm.subset hmem)
  · rw [List.length_take, hperm.length_eq, List.length_range]
    omega

theorem select_ok_spec (angles : List ℚ) (fraction : ℚ) (method : String) (sigma : ℚ)
    (seed : ℕ) (hm : method ∈ selectMethods) :
    ∃ idxs, _select angles fraction method sigma seed = Except.ok idxs ∧
      idxs.Nodup ∧ (∀ i ∈ idxs, i < angles.length) ∧
      idxs.length = angles.length - (round (fraction * angles.length)).toNat := by
  have hk : angles.length - (round (fraction * angles.length)).toNat ≤ angles.length :=
    Nat.sub_le _ _
  simp only [selectMethods, List.mem_cons, List.not_mem_nil, or_false] at hm
  rcases hm with rfl | rfl
  · obtain ⟨h1, h2, h3⟩ := take_shuffle_range_spec seed angles.length _ hk
    exact ⟨_, by simp [_select], h1, h2, h3⟩
  · obtain ⟨h1, h2, h3⟩ :=
      take_shuffle_range_spec (lcgNext (seed + sigma.num.natAbs)) angles.length _ hk
    exact ⟨_, by simp [_select], h1, h2, h3⟩

/-! ### Zip-lookup facts for the angle substitution map -/

theorem lookup_zip_eq_none {l1 : List ℕ} {l2 : List ℚ} {j : ℕ} (h : j ∉ l1) :
    (l1.zip l2).lookup j = none := by
  induction l1 generalizing l2 with
  | nil => simp
  | cons a l1 ih =>
    cases l2 with
    | nil => simp
    | cons b l2 =>
      have hja : (j == a) = false := by
        simp only [beq_eq_false_iff_ne, ne_eq]
        intro hj
        exact h (hj ▸ List.mem_cons_self _ _)
      simp only [List.zip_cons_cons, List.lookup_cons, hja]
      exact ih fun hm => h (List.mem_cons_of_mem _ hm)

theorem lookup_zip_mem {l1 : List ℕ} {l2 : List ℚ} {j : ℕ}
    (hlen : l2.length = l1.length) (h : j ∈ l1) :
    ∃ v ∈ l2, (l1.zip l2).lookup j = some v := by
  induction l1 generalizing l2 with
  | nil => simp at h
  | cons a l1 ih =>
    cases l2 with
    | nil => simp at hlen
    | cons b l2 =>
      by_cases hja : j = a
      · exact ⟨b, List.mem_cons_self _ _, by simp [List.lookup_cons, hja]⟩
      · have hj : j ∈ l1 := by
          rcases List.mem_cons.1 h with h2 | h2
          · exact absurd h2 hja
          · exact h2
        obtain ⟨v, hv, hlk⟩ := ih (by simpa using hlen) hj
        refine ⟨v, List.mem_cons_of_mem _ hv, ?_⟩
        have hja2 : (j == a) = false := by simp [hja]
        simp [List.zip_cons_cons, List.lookup_cons, hja2, hlk]

/-! ### Rebuilding a circuit with substituted angles -/

theorem rebuild_length (f : ℕ → ℚ) (ops : List Op) (j : ℕ) :
    (rebuild f ops j).length = ops.length := by
  induction ops generalizing j with
  | nil => rfl
  | cons op rest ih =>
    cases op with
    | rz q a =>
      rw [rebuild]
      by_cases h : _is_clifford_angle a
      · rw [if_pos h]
        simp [ih]
      · rw [if_neg h]
        simp [ih]
    | rx q a => simp [rebuild, ih]
    | x q => simp [rebuild, ih]
    | cx q1 q2 => simp [rebuild, ih]
    | measure q => simp [rebuild, ih]

theorem rebuild_qubits (f : ℕ → ℚ) (ops : List Op) (j : ℕ) :
    (rebuild f ops j).flatMap Op.qubits = ops.flatMap Op.qubits := by
  induction ops generalizing j with
  | nil => rfl
  | cons op rest ih =>
    cases op with
    | rz q a =>
      rw [rebuild]
      by_cases h : _is_clifford_angle a
      · rw [if_pos h]
        simp [ih]
      · rw [if_neg h]
        simp only [List.flatMap_cons, ih]
        rfl
    | rx q a => simp [rebuild, ih]
    | x q => simp [rebuild, ih]
    | cx q1 q2 => simp [rebuild, ih]
    | measure q => simp [rebuild, ih]

theorem rebuild_count (f : ℕ → ℚ) (ops : List Op) (j : ℕ) :
    ((rebuild f ops j).filter isNCRz).length =
      ((List.range' j ((ops.filter isNCRz).length)).filter
        (fun i => !_is_clifford_angle (f i))).length := by
  induction ops generalizing j with
  | nil => rfl
  | cons op rest ih =>
    cases op with
    | rz q a =>
      have hreb : rebuild f (Op.rz q a :: rest) j =
          if _is_clifford_angle a then Op.rz q a :: rebuild f rest j
          else Op.rz q (f j) :: rebuild f rest (j + 1) := rfl
      by_cases h : _is_clifford_angle a
      · rw [hreb, if_pos h, List.filter_cons, List.filter_cons,
          if_neg (by simp [isNCRz, h]), if_neg (by simp [isNCRz, h])]
        exact ih j
      · have hfil : List.filter isNCRz (Op.rz q a :: rest) =
            Op.rz q a :: List.filter isNCRz rest := by
          rw [List.filter_cons, if_pos (by simp [isNCRz, h])]
        rw [hreb, if_neg h, hfil, List.length_cons, List.range'_succ,
          List.filter_cons, List.filter_cons]
        by_cases hfj : _is_clifford_angle (f j)
        · rw [if_neg (by simp [isNCRz, hfj]), if_neg (by simp [hfj])]
          exact ih (j + 1)
        · rw [if_pos (by simp [isNCRz, hfj]), if_pos (by simp [hfj])]
          simp only [List.length_cons]
          rw [ih (j + 1)]
    | rx q a =>
      have hreb : rebuild f (Op.rx q a :: rest) j = Op.rx q a :: rebuild f rest j := rfl
      rw [hreb, List.filter_cons, List.filter_cons, if_neg (by simp [isNCRz]),
        if_neg (by simp [isNCRz])]
      exact ih j
    | x q =>
      have hreb : rebuild f (Op.x q :: rest) j = Op.x q :: rebuild f rest j := rfl
      rw [hreb, List.filter_cons, List.filter_cons, if_neg (by simp [isNCRz]),
        if_neg (by simp [isNCRz])]
      exact ih j
    | cx q1 q2 =>
      have hreb : rebuild f (Op.cx q1 q2 :: rest) j = Op.cx q1 q2 :: rebuild f rest j := rfl
      rw [hreb, List.filter_cons, List.filter_cons, if_neg (by simp [isNCRz]),
        if_neg (by simp [isNCRz])]
      exact ih j
    | measure q =>
      have hreb : rebuild f (Op.measure q :: rest) j = Op.measure q :: rebuild f rest j := rfl
      rw [hreb, List.filter_cons, List.filter_cons, if_neg (by simp [isNCRz]),
        if_neg (by simp [isNCRz])]
      exact ih j

theorem nonCliffordAngles_length (c : Circuit) :
    (nonCliffordAngles c).length = count_non_cliffords c := by
  obtain ⟨l⟩ := c
  show (l.filterMap fun op => match op with
      | Op.rz _ a => if _is_clifford_angle a then none else some a
      | _ => none).length = (l.filter isNCRz).length
  induction l with
  | nil => rfl
  | cons op rest ih =>
    cases op with
    | rz q a =>
      by_cases h : _is_clifford_angle a <;>
        simp [List.filterMap_cons, List.filter_cons, isNCRz, h, ih]
    | rx q a => simp [List.filterMap_cons, List.filter_cons, isNCRz, ih]
    | x q => simp [List.filterMap_cons, List.filter_cons, isNCRz, ih]
    | cx q1 q2 => simp [List.filterMap_cons, List.filter_cons, isNCRz, ih]
    | measure q => simp [List.filterMap_cons, List.filter_cons, isNCRz, ih]

theorem nonCliffordAngles_all_non_clifford (c : Circuit) :
    ∀ a ∈ nonCliffordAngles c, _is_clifford_angle a = false := by
  intro a ha
  rw [nonCliffordAngles] at ha
  obtain ⟨op, _, hsome⟩ := List.mem_filterMap.1 ha
  cases op with
  | rz q b =>
    by_cases hb : _is_clifford_angle b
    · simp [hb] at hsome
    · simp [hb] at hsome
      subst hsome
      simpa using hb
  | rx q b => simp at hsome
  | x q => simp at hsome
  | cx q1 q2 => simp at hsome
  | measure q => simp at hsome

theorem length_filter_add_length_filter_not {α : Type} (p : α → Bool) (l : List α) :
    (l.filter p).length + (l.filter (fun a => !p a)).length = l.length := by
  induction l with
  | nil => rfl
  | cons a l ih =>
    by_cases h : p a <;> simp [List.filter_cons, h, ← ih] <;> omega

theorem filter_not_mem_range_length {T : List ℕ} {n : ℕ} (hnd : T.Nodup)
    (hsub : ∀ i ∈ T, i < n) :
    ((List.range n).filter (fun j => !decide (j ∈ T))).length = n - T.length := by
  have hmemperm : ((List.range n).filter (fun j => decide (j ∈ T))).Perm T := by
    apply List.perm_of_nodup_nodup_toFinset_eq ((List.nodup_range n).filter _) hnd
    ext j
    simp only [List.mem_toFinset, List.mem_filter, List.mem_range, decide_eq_true_eq]
    exact ⟨fun h => h.2, fun h => ⟨hsub j h, h⟩⟩
  have hlen := hmemperm.length_eq
  have hsum := length_filter_add_length_filter_not (fun j => decide (j ∈ T)) (List.range n)
  rw [List.length_range] at hsum
  omega

/-! ### Count conservation of training-circuit generation -/

theorem replace_ok_exists (angles : List ℚ) (m : String) (ss sr : ℚ) (seed : ℕ)
    (hm : m ∈ replaceMethods) :
    ∃ out, _replace angles m ss sr seed = Except.ok out := by
  simp only [replaceMethods, List.mem_cons, List.not_mem_nil, or_false] at hm
  rcases hm with rfl | rfl | rfl
  · exact ⟨_, by rw [_replace, if_pos rfl]⟩
  · exact ⟨_, by rw [_replace, if_neg (by decide), if_pos rfl]⟩
  · exact ⟨_, by rw [_replace, if_neg (by decide), if_neg (by decide), if_pos rfl]⟩

theorem replace_ok_length {angles : List ℚ} {m : String} {ss sr : ℚ} {seed : ℕ}
    {out : List ℚ} (hout : _replace angles m ss sr seed = Except.ok out) :
    out.length = angles.length := by
  rw [_replace] at hout
  split_ifs at hout
  · injection hout with hout
    rw [← hout]
    simp
  · injection hout with hout
    rw [← hout]
    simp
  · injection hout with hout
    rw [← hout]
    simp

theorem round_toNat_le (f : ℚ) (n : ℕ) (hf1 : f ≤ 1) : (round (f * n)).toNat ≤ n := by
  have h1 : round (f * (n : ℚ)) ≤ (n : ℤ) := by
    rw [round_eq]
    have hfn : (f * n : ℚ) ≤ (n : ℚ) := by
      have hn0 : (0 : ℚ) ≤ (n : ℚ) := by positivity
      nlinarith
    have hle : (f * (n : ℚ)) + 1/2 ≤ (1/2 : ℚ) + (n : ℤ) := by
      push_cast
      linarith
    have h2 := Int.floor_le_floor hle
    rw [Int.floor_add_int] at h2
    have h3 : ⌊(1/2 : ℚ)⌋ = 0 := by
      rw [Int.floor_eq_zero_iff, Set.mem_Ico]
      norm_num
    omega
  omega

theorem map_to_near_clifford_spec (c : Circuit) (fraction : ℚ) (mS mR : String)
    (ss sr : ℚ) (seed : ℕ) (hS : mS ∈ selectMethods) (hR : mR ∈ replaceMethods)
    (hf1 : fraction ≤ 1) :
    ∃ c2, _map_to_near_clifford c fraction mS mR ss sr seed = Except.ok c2 ∧
      c2.ops.length = c.ops.length ∧ c2.qubitSet = c.qubitSet ∧
      count_non_cliffords c2 = (round (fraction * count_non_cliffords c)).toNat := by
  obtain ⟨toChange, hsel, hnd, hmem, hlen⟩ :=
    select_ok_spec (nonCliffordAngles c) fraction mS ss seed hS
  obtain ⟨newAngles, hrep⟩ :=
    replace_ok_exists (toChange.map fun i => (nonCliffordAngles c).getD i 0) mR ss sr
      (lcgNext seed) hR
  have hrep_len : newAngles.length = toChange.length := by
    rw [replace_ok_length hrep, List.length_map]
  have hrep_cliff := replace_ok_all_clifford hR hrep
  rw [nonCliffordAngles_length] at hlen hmem
  have hchar : ∀ j < count_non_cliffords c,
      _is_clifford_angle (((toChange.zip newAngles).lookup j).getD
        ((nonCliffordAngles c).getD j 0)) = decide (j ∈ toChange) := by
    intro j hj
    by_cases hjT : j ∈ toChange
    · obtain ⟨v, hv, hlk⟩ := lookup_zip_mem hrep_len hjT
      simp [hlk, hrep_cliff v hv, hjT]
    · have hjlen : j < (nonCliffordAngles c).length := by
        rw [nonCliffordAngles_length]
        exact hj
      have hmem2 : (nonCliffordAngles c).getD j 0 ∈ nonCliffordAngles c := by
        rw [List.getD_eq_getElem _ _ hjlen]
        exact List.getElem_mem _
      have hnc := nonCliffordAngles_all_non_clifford c _ hmem2
      rw [lookup_zip_eq_none hjT]
      simp only [Option.getD_none, hnc, hjT]
      simp [hjT]
  refine ⟨⟨rebuild (fun j => ((toChange.zip newAngles).lookup j).getD
      ((nonCliffordAngles c).getD j 0)) c.ops 0⟩, ?_, ?_, ?_, ?_⟩
  · simp only [_map_to_near_clifford, hsel, hrep]
  · exact rebuild_length _ _ _
  · rw [Circuit.qubitSet, Circuit.qubitSet]
    rw [show (⟨rebuild (fun j => ((toChange.zip newAngles).lookup j).getD
        ((nonCliffordAngles c).getD j 0)) c.ops 0⟩ : Circuit).ops =
      rebuild (fun j => ((toChange.zip newAngles).lookup j).getD
        ((nonCliffordAngles c).getD j 0)) c.ops 0 from rfl]
    rw [rebuild_qubits]
  · rw [count_non_cliffords]
    rw [show (⟨rebuild (fun j => ((toChange.zip newAngles).lookup j).getD
        ((nonCliffordAngles c).getD j 0)) c.ops 0⟩ : Circuit).ops =
      rebuild (fun j => ((toChange.zip newAngles).lookup j).getD
        ((nonCliffordAngles c).getD j 0)) c.ops 0 from rfl]
    rw [rebuild_count]
    rw [show (List.filter isNCRz c.ops).length = count_non_cliffords c from rfl]
    rw [← List.range_eq_range']
    rw [List.filter_congr (q := fun j => !decide (j ∈ toChange))
      (fun j hj => by rw [List.mem_range] at hj; rw [hchar j hj])]
    rw [filter_not_mem_range_length hnd hmem, hlen]
    have hle := round_toNat_le fraction (count_non_cliffords c) hf1
    omega

theorem mapExcept_ok {f : ℕ → Except String Circuit} {g : ℕ → Circuit}
    (h : ∀ i, f i = Except.ok (g i)) (l : List ℕ) :
    mapExcept f l = Except.ok (l.map g) := by
  induction l with
  | nil => rfl
  | cons i is ih =>
    rw [mapExcept, h i, ih]
    rfl

/-- C4: for every circuit, requested count `n`, fraction `f ∈ [0, 1]` and
recognised policies, `generate_training_circuits` returns exactly `n`
circuits, each with the input's gate count and qubit set and with exactly
`round(f × non_clifford_count)` non-Clifford rotations remaining. -/
theorem generate_training_circuits_spec (c : Circuit) (n : ℕ) (fraction : ℚ)
    (mS mR : String) (ss sr : ℚ) (seed : ℕ)
    (hS : mS ∈ selectMethods) (hR : mR ∈ replaceMethods) (hf1 : fraction ≤ 1) :
    ∃ cs, generate_training_circuits c n fraction mS mR ss sr seed = Except.ok cs ∧
      cs.length = n ∧
      ∀ c2 ∈ cs, c2.ops.length = c.ops.length ∧ c2.qubitSet = c.qubitSet ∧
        count_non_cliffords c2 = (round (fraction * count_non_cliffords c)).toNat := by
  choose g hg using fun i : ℕ =>
    map_to_near_clifford_spec c fraction mS mR ss sr (seed + i) hS hR hf1
  refine ⟨(List.range n).map g, ?_, by simp, ?_⟩
  · rw [generate_training_circuits]
    exact mapExcept_ok (fun i => (hg i).1) _
  · intro c2 hc2
    obtain ⟨i, _, rfl⟩ := List.mem_map.1 hc2
    exact ⟨(hg i).2.1, (hg i).2.2.1, (hg i).2.2.2⟩

/-- Witness for C4 at a concrete 7-gate circuit with three non-Clifford
Z-rotations, `n = 2`, `f = 1/2`. -/
theorem generate_training_circuits_spec_witness :
    ∃ cs, generate_training_circuits witCircuit 2 (1/2) "random" "closest" 0 0 7 =
        Except.ok cs ∧
      cs.length = 2 ∧
      ∀ c2 ∈ cs, c2.ops.length = witCircuit.ops.length ∧ c2.qubitSet = witCircuit.qubitSet ∧
        count_non_cliffords c2 = (round ((1/2 : ℚ) * count_non_cliffords witCircuit)).toNat :=
  generate_training_circuits_spec witCircuit 2 (1/2) "random" "closest" 0 0 7
    (by decide) (by decide) (by norm_num)
